import Mathlib

/-!
Shallow embedding of `src/main.py` (astrbot_plugin_counter, class
`CounterStarPlugin`): a chat-bot counter store with add/del commands, a
substring auto-increment matcher, and JSON persistence.

Modelling conventions:
* Python `dict` (insertion ordered, unique keys, assignment overwrites in
  place or appends) is modelled as an association list `List (String × α)`
  with the operations `dictGet`, `dictSet`, `dictPop`.
* Python `str.strip().casefold()` (`_norm`) is modelled over the character
  list: whitespace is stripped from both ends and characters are lowered
  (ASCII lowering stands in for `casefold`).
* Python `needle in haystack` substring tests and `str.startswith` are
  modelled on character lists by structural recursion.
* The plugin object's mutable state `self.data["counters"]`,
  `self._name_index`, `self._alias_index` is the record `Store`; each
  handler becomes a function from the old store (plus its inputs) to the
  new store and its outputs.
* `json.dump`/`json.loads` are modelled at the JSON-value level by the
  inductive `Json` with `encodeStore` (shape written by `_save`) and
  `decodeStore` (the field accesses with `.get` defaults performed on the
  parsed document).
-/

namespace CounterPlugin

/-- Whitespace removed from both ends of a character list; models
`str.strip()`. -/
def stripData (l : List Char) : List Char :=
  ((l.dropWhile Char.isWhitespace).reverse.dropWhile Char.isWhitespace).reverse

/-- String-level wrapper for `stripData`, the model of `str.strip()`. -/
def strip (s : String) : String :=
  ⟨stripData s.data⟩

/-- Characters are lowered one by one after stripping; `Char.toLower`
(ASCII lowering) stands in for `str.casefold`. -/
def normData (l : List Char) : List Char :=
  (stripData l).map Char.toLower

/-- Model of `CounterStarPlugin._norm`: `(text or "").strip().casefold()`. -/
def norm (s : String) : String :=
  ⟨normData s.data⟩

/-- Model of Python substring containment `needle in hay` on strings. -/
def strContains (hay needle : List Char) : Bool :=
  needle.isPrefixOf hay ||
    match hay with
    | [] => false
    | _ :: t => strContains t needle

/-- String-level wrapper for `strContains`. -/
def substrIn (needle haystack : String) : Bool :=
  strContains haystack.data needle.data

/-- Model of Python `s.startswith(p)`. -/
def strStartsWith (s p : String) : Bool :=
  p.data.isPrefixOf s.data

/-- Lookup in a Python-style dict modelled as an association list. -/
def dictGet {α : Type} (d : List (String × α)) (k : String) : Option α :=
  match d with
  | [] => none
  | kv :: rest => if kv.1 = k then some kv.2 else dictGet rest k

/-- Assignment `d[k] = v` on a Python-style dict: overwrite in place if the
key exists, otherwise append at the end (insertion order preserved). -/
def dictSet {α : Type} (d : List (String × α)) (k : String) (v : α) : List (String × α) :=
  match d with
  | [] => [(k, v)]
  | kv :: rest => if kv.1 = k then (k, v) :: rest else kv :: dictSet rest k v

/-- Model of `d.pop(k, None)` restricted to its effect on the dict. -/
def dictPop {α : Type} (d : List (String × α)) (k : String) : List (String × α) :=
  d.filter (fun kv => kv.1 != k)

/-- One counter value: the JSON object `{"count": int, "aliases": [str]}`. -/
structure Counter where
  count : Int
  aliases : List String
deriving DecidableEq

/-- The plugin state: `self.data["counters"]` plus the two derived indices
`self._name_index` (casefolded name → canonical name) and
`self._alias_index` (casefolded alias → canonical name). -/
structure Store where
  counters : List (String × Counter)
  nameIndex : List (String × String)
  aliasIndex : List (String × String)
deriving DecidableEq

/-- Inner loop of `_rebuild_index` over one counter's alias list: skip an
alias whose normal form is empty or equals the normalized main name,
otherwise write `alias_index[na] = name`. -/
def addAliases (name n : String) (ai : List (String × String)) :
    List String → List (String × String)
  | [] => ai
  | a :: rest =>
    addAliases name n
      (if norm a = "" ∨ norm a = n then ai else dictSet ai (norm a) name) rest

/-- Main loop of `_rebuild_index`: for each counter, write
`name_index[norm name] = name` and add its aliases to the alias index. -/
def rebuildAux (ni ai : List (String × String)) :
    List (String × Counter) → List (String × String) × List (String × String)
  | [] => (ni, ai)
  | nc :: rest =>
    rebuildAux (dictSet ni (norm nc.1) nc.1)
      (addAliases nc.1 (norm nc.1) ai nc.2.aliases) rest

/-- Model of `_rebuild_index`: both indices rebuilt from scratch from the
counter table alone. -/
def rebuildIndex (cs : List (String × Counter)) :
    List (String × String) × List (String × String) :=
  rebuildAux [] [] cs

/-- A store whose indices have just been rebuilt from its table. -/
def rebuildStore (cs : List (String × Counter)) : Store :=
  ⟨cs, (rebuildIndex cs).1, (rebuildIndex cs).2⟩

/-- The initial state `{"counters": {}}` with empty indices. -/
def emptyStore : Store :=
  rebuildStore []

/-- The conflict messages produced by `_cnt_add`, one constructor per
message shape, carrying the offending user-supplied string. -/
inductive Conflict where
  | nameTaken (name : String)
  | aliasInvalid (a : String)
  | aliasClashName (a : String)
  | aliasClashAlias (a : String)
deriving DecidableEq

/-- The conflict-collection block of `_cnt_add` over the already-filtered
alias list: a name conflict when the normalized name is an existing name
or alias, then one conflict per alias in list order, with the same
if/elif/elif cascade as the source. -/
def addConflicts (s : Store) (name : String) (aliases : List String) : List Conflict :=
  (if (dictGet s.nameIndex (norm name)).isSome ∨
      (dictGet s.aliasIndex (norm name)).isSome then
    [Conflict.nameTaken name]
  else []) ++
  aliases.filterMap (fun a =>
    if norm a = "" ∨ norm a = norm name then some (Conflict.aliasInvalid a)
    else if (dictGet s.nameIndex (norm a)).isSome then some (Conflict.aliasClashName a)
    else if (dictGet s.aliasIndex (norm a)).isSome then some (Conflict.aliasClashAlias a)
    else none)

/-- Model of `_cnt_add` after argument extraction: `name = args[0]`,
`rawAliases = args[1:]` (blank aliases dropped). Returns the new store and
the conflict list; a non-empty conflict list means the operation aborted
with the store untouched (the Python code mutates nothing before the
conflict check). -/
def cntAdd (s : Store) (name : String) (rawAliases : List String) :
    Store × List Conflict :=
  let aliases := rawAliases.filter (fun a => strip a ≠ "")
  if addConflicts s name aliases = [] then
    let prevCount : Int :=
      match dictGet s.counters name with
      | some c => c.count
      | none => 0
    (rebuildStore (dictSet s.counters name ⟨prevCount, aliases⟩), [])
  else (s, addConflicts s name aliases)

/-- Model of `_cnt_del` after argument extraction (`token = args[0]`):
resolve the token against the alias index first, then the name index; on
success pop the resolved counter and rebuild; on failure leave the store
untouched and report nothing found (`none`). -/
def cntDel (s : Store) (token : String) : Store × Option String :=
  match dictGet s.aliasIndex (norm token) with
  | some trueName => (rebuildStore (dictPop s.counters trueName), some trueName)
  | none =>
    match dictGet s.nameIndex (norm token) with
    | some trueName => (rebuildStore (dictPop s.counters trueName), some trueName)
    | none => (s, none)

/-- One pattern test from the matcher loop in `on_any_message`:
`if not p: continue` then `if self._norm(p) and self._norm(p) in tnorm`. -/
def patternHits (tnorm p : String) : Bool :=
  p ≠ "" && (norm p ≠ "" && substrIn (norm p) tnorm)

/-- A counter matches when its name or any alias matches; the Python inner
loop breaks at the first hit, so one message yields at most one hit. -/
def counterMatches (tnorm name : String) (c : Counter) : Bool :=
  (name :: c.aliases).any (patternHits tnorm)

/-- The matcher loop of `on_any_message`: walk the table in order, add one
to every matched counter, and collect the hit names in table order. -/
def runMatcher (tnorm : String) :
    List (String × Counter) → List (String × Counter) × List String
  | [] => ([], [])
  | nc :: rest =>
    let tail := runMatcher tnorm rest
    if counterMatches tnorm nc.1 nc.2 then
      ((nc.1, ⟨nc.2.count + 1, nc.2.aliases⟩) :: tail.1, nc.1 :: tail.2)
    else (nc :: tail.1, tail.2)

/-- Reading `counters[n]["count"]` with the `.get(..., 0)` default used
throughout the source (the hit names always are existing keys). -/
def countOf (cs : List (String × Counter)) (n : String) : Int :=
  match dictGet cs n with
  | some c => c.count
  | none => 0

/-- First milestone value set of `_get_special_message`. -/
def milestonesA : List Int := [114, 1145, 11451, 114514]

/-- Second milestone value set of `_get_special_message`. -/
def milestonesB : List Int := [1919, 19191, 191919]

/-- Third milestone value set of `_get_special_message`. -/
def milestonesC : List Int := [520, 1314]

/-- Fourth milestone value set of `_get_special_message`. -/
def milestonesD : List Int := [6, 66, 666, 6666]

/-- Fifth milestone value set of `_get_special_message`. -/
def milestonesE : List Int := [233, 2333, 23333]

/-- Sixth milestone value set of `_get_special_message`. -/
def milestonesF : List Int := [100, 1000, 10000, 100000]

/-- Model of `_get_special_message`: walk the fixed group table in order
and return the first themed message whose value set holds the count. -/
def getSpecialMessage (name : String) (count : Int) : Option String :=
  if count ∈ milestonesA then some ("恶臭的计数器就是「" ++ name ++ "」啦~~~")
  else if count ∈ milestonesB then some ("就这？————「" ++ name ++ "」")
  else if count ∈ milestonesC then some ("💗💗💗我爱你! 一生一世! ————「" ++ name ++ "」")
  else if count ∈ milestonesD then some (name ++ ", 6")
  else if count ∈ milestonesE then some "23333————"
  else if count ∈ milestonesF then
    some ("🎉🎉🎉恭喜！计数器「" ++ name ++ "」达成 " ++ toString count ++ " 次！")
  else none

/-- The generic single-hit acknowledgement line of `on_any_message`. -/
def genericLine (n : String) (c : Int) : String :=
  "累计 " ++ n ++ " " ++ toString c ++ "/114514"

/-- One `name(count)` part of the multi-hit summary. -/
def hitPart (cs : List (String × Counter)) (n : String) : String :=
  n ++ "(" ++ toString (countOf cs n) ++ ")"

/-- The combined multi-hit summary line of `on_any_message`. -/
def combinedLine (cs : List (String × Counter)) (hits : List String) : String :=
  "累计 " ++ String.intercalate "、" (hits.map (hitPart cs)) ++ " /114514"

/-- The acknowledgement chosen at the end of `on_any_message`: a single hit
goes through the milestone table and falls back to the generic line; any
other hit list gets the combined summary. -/
def buildReply (cs : List (String × Counter)) (hits : List String) : String :=
  match hits with
  | [n] =>
    match getSpecialMessage n (countOf cs n) with
    | some m => m
    | none => genericLine n (countOf cs n)
  | _ => combinedLine cs hits

/-- The self-message guard of `on_any_message`: compare sender and bot
identity when both are available (`none` models a platform on which the
accessor raises `AttributeError`, in which case the check is skipped). -/
def isSelfMessage (senderId selfId : Option String) : Bool :=
  match senderId, selfId with
  | some a, some b => a == b
  | _, _ => false

/-- Model of `on_any_message`: returns the new store, the list of hit
counter names (non-empty exactly when the batch was applied and saved),
and the optional acknowledgement text. -/
def onAnyMessage (s : Store) (notify : Bool) (senderId selfId : Option String)
    (msgStr : String) : Store × List String × Option String :=
  if isSelfMessage senderId selfId then (s, [], none)
  else
    let text := strip msgStr
    if text = "" then (s, [], none)
    else if strStartsWith text "/cnt" then (s, [], none)
    else
      let res := runMatcher (norm text) s.counters
      let reply :=
        if notify ∧ res.2 ≠ [] then some (buildReply res.1 res.2) else none
      ({ s with counters := res.1 }, res.2, reply)

/-- The message handler with `notify_on_increment = True`, the value set in
`__init__`. -/
def msgResult (s : Store) (senderId selfId : Option String) (msgStr : String) :
    Store × List String × Option String :=
  onAnyMessage s true senderId selfId msgStr

/-- JSON values, as produced by `json.loads` / consumed by `json.dump`. -/
inductive Json where
  | null : Json
  | bool (b : Bool) : Json
  | num (n : Int) : Json
  | str (s : String) : Json
  | arr (xs : List Json) : Json
  | obj (kvs : List (String × Json)) : Json

/-- Shape serialized by `_save` for one counter. -/
def encodeCounter (c : Counter) : Json :=
  Json.obj [("count", Json.num c.count), ("aliases", Json.arr (c.aliases.map Json.str))]

/-- Shape serialized by `_save`: `{"counters": {name: {...}}}`. -/
def encodeStore (cs : List (String × Counter)) : Json :=
  Json.obj [("counters", Json.obj (cs.map (fun nc => (nc.1, encodeCounter nc.2))))]

/-- Reading one counter object back with the `.get("count", 0)` /
`.get("aliases", [])` defaults the source applies to the parsed data. -/
def decodeCounter (j : Json) : Counter :=
  match j with
  | Json.obj fields =>
    { count :=
        match dictGet fields "count" with
        | some (Json.num c) => c
        | _ => 0
      aliases :=
        match dictGet fields "aliases" with
        | some (Json.arr xs) =>
          xs.filterMap (fun x => match x with | Json.str a => some a | _ => none)
        | _ => [] }
  | _ => ⟨0, []⟩

/-- Reading the whole document back: `self.data.get("counters", {})`. -/
def decodeStore (j : Json) : List (String × Counter) :=
  match j with
  | Json.obj kvs =>
    match dictGet kvs "counters" with
    | some (Json.obj cs) => cs.map (fun nc => (nc.1, decodeCounter nc.2))
    | _ => []
  | _ => []

/-- Model of `_load` on a readable file holding document `j`: adopt the
parsed table and rebuild both indices. -/
def loadStore (j : Json) : Store :=
  rebuildStore (decodeStore j)

/-- The case-folded match keys contributed by one table entry: its
normalized name followed by its normalized aliases. -/
def pats (nc : String × Counter) : List String :=
  norm nc.1 :: nc.2.aliases.map norm

/-- Per-counter well-formedness: every alias normalizes to a non-empty
string different from the counter's own normalized name. -/
def counterOK (nc : String × Counter) : Prop :=
  ∀ a ∈ nc.2.aliases, norm a ≠ "" ∧ norm a ≠ norm nc.1

instance (nc : String × Counter) : Decidable (counterOK nc) := by
  unfold counterOK
  infer_instance

/-- Two table entries share no case-folded name or alias. -/
def patsDisjoint (x y : String × Counter) : Prop :=
  ∀ k, k ∈ pats x → k ∉ pats y

instance (x y : String × Counter) : Decidable (patsDisjoint x y) := by
  unfold patsDisjoint
  infer_instance

/-- Table-level well-formedness: every entry is well formed and the
entries are pairwise disjoint on case-folded names and aliases. -/
def tableOK (cs : List (String × Counter)) : Prop :=
  (∀ nc ∈ cs, counterOK nc) ∧ cs.Pairwise patsDisjoint

instance (cs : List (String × Counter)) : Decidable (tableOK cs) := by
  unfold tableOK
  infer_instance

/-- The store's indices agree with a fresh rebuild from its table. -/
def indexed (s : Store) : Prop :=
  s.nameIndex = (rebuildIndex s.counters).1 ∧ s.aliasIndex = (rebuildIndex s.counters).2

instance (s : Store) : Decidable (indexed s) := by
  unfold indexed
  infer_instance

/-- Full store invariant: well-formed table with freshly derivable indices. -/
def GoodStore (s : Store) : Prop :=
  tableOK s.counters ∧ indexed s

instance (s : Store) : Decidable (GoodStore s) := by
  unfold GoodStore
  infer_instance

/-- States reachable from the empty store through the add and delete
commands (a failed command returns the store unchanged). -/
inductive Reachable : Store → Prop where
  | empty : Reachable emptyStore
  | add (s : Store) (name : String) (args : List String) :
      Reachable s → Reachable (cntAdd s name args).1
  | del (s : Store) (token : String) :
      Reachable s → Reachable (cntDel s token).1

/-! ### Dictionary lemmas -/

theorem dictGet_dictSet_self {α : Type} (d : List (String × α)) (k : String) (v : α) :
    dictGet (dictSet d k v) k = some v := by
  induction d with
  | nil => simp [dictGet, dictSet]
  | cons kv rest ih =>
    by_cases h : kv.1 = k
    · simp [dictGet, dictSet, h]
    · simp [dictGet, dictSet, h, ih]

theorem dictGet_dictSet_ne {α : Type} (d : List (String × α)) (k : String) (v : α)
    (k' : String) (h : k' ≠ k) : dictGet (dictSet d k v) k' = dictGet d k' := by
  have hks : ¬ k = k' := fun hh => h hh.symm
  induction d with
  | nil => simp [dictGet, dictSet, hks]
  | cons kv rest ih =>
    obtain ⟨a, b⟩ := kv
    by_cases hk : a = k
    · subst hk
      simp [dictGet, dictSet, hks]
    · by_cases hk' : a = k'
      · simp [dictGet, dictSet, hk, hk', h]
      · simp [dictGet, dictSet, hk, hk', ih]

theorem mem_dictSet {α : Type} {d : List (String × α)} {k : String} {v : α}
    {kv : String × α} (h : kv ∈ dictSet d k v) : kv ∈ d ∨ kv = (k, v) := by
  induction d with
  | nil => simpa [dictSet] using h
  | cons hd rest ih =>
    by_cases hk : hd.1 = k
    · simp only [dictSet, if_pos hk, List.mem_cons] at h
      rcases h with h | h
      · right; exact h
      · left; exact List.mem_cons_of_mem _ h
    · simp only [dictSet, if_neg hk, List.mem_cons] at h
      rcases h with h | h
      · left; exact h ▸ List.mem_cons_self _ _
      · rcases ih h with h' | h'
        · left; exact List.mem_cons_of_mem _ h'
        · right; exact h'

theorem dictGet_mem {α : Type} {d : List (String × α)} {k : String} {v : α}
    (h : dictGet d k = some v) : (k, v) ∈ d := by
  induction d with
  | nil => simp [dictGet] at h
  | cons kv rest ih =>
    obtain ⟨a, b⟩ := kv
    by_cases hk : a = k
    · subst hk
      simp [dictGet] at h
      rw [← h]
      exact List.mem_cons_self _ _
    · simp only [dictGet] at h
      rw [if_neg hk] at h
      exact List.mem_cons_of_mem _ (ih h)

theorem dictGet_eq_none_iff {α : Type} (d : List (String × α)) (k : String) :
    dictGet d k = none ↔ k ∉ d.map Prod.fst := by
  induction d with
  | nil => simp [dictGet]
  | cons kv rest ih =>
    obtain ⟨a, b⟩ := kv
    by_cases hk : a = k
    · subst hk
      simp [dictGet]
    · have hks : ¬ k = a := fun hh => hk hh.symm
      simp [dictGet, hk, ih, hks]

theorem dictGet_isSome_iff {α : Type} (d : List (String × α)) (k : String) :
    (dictGet d k).isSome ↔ k ∈ d.map Prod.fst := by
  rcases h : dictGet d k with _ | v
  · simpa [h] using (dictGet_eq_none_iff d k).mp h
  · simp only [Option.isSome_some, true_iff]
    exact List.mem_map.mpr ⟨(k, v), dictGet_mem h, rfl⟩

theorem dictSet_of_not_mem_keys {α : Type} {d : List (String × α)} {k : String}
    (v : α) (h : k ∉ d.map Prod.fst) : dictSet d k v = d ++ [(k, v)] := by
  induction d with
  | nil => simp [dictSet]
  | cons kv rest ih =>
    obtain ⟨a, b⟩ := kv
    simp only [List.map_cons, List.mem_cons] at h
    push_neg at h
    have h1 : ¬ a = k := fun hh => h.1 hh.symm
    simp [dictSet, h1, ih h.2]

theorem mem_keys_dictSet {α : Type} (d : List (String × α)) (k : String) (v : α)
    (k' : String) :
    k' ∈ (dictSet d k v).map Prod.fst ↔ k' ∈ d.map Prod.fst ∨ k' = k := by
  induction d with
  | nil => simp [dictSet]
  | cons kv rest ih =>
    obtain ⟨a, b⟩ := kv
    by_cases hk : a = k
    · subst hk
      by_cases hk' : k' = a <;> simp [dictSet, hk', ih]
    · by_cases hk' : k' = a <;> simp [dictSet, hk, hk', ih, or_assoc]

theorem dictSet_keys_nodup {α : Type} {d : List (String × α)} {k : String} (v : α)
    (h : (d.map Prod.fst).Nodup) : ((dictSet d k v).map Prod.fst).Nodup := by
  induction d with
  | nil => simp [dictSet]
  | cons kv rest ih =>
    obtain ⟨a, b⟩ := kv
    simp only [List.map_cons, List.nodup_cons] at h
    by_cases hk : a = k
    · subst hk
      simp only [dictSet, if_true, List.map_cons, List.nodup_cons, ite_true]
      exact h
    · simp only [dictSet]
      rw [if_neg hk]
      simp only [List.map_cons, List.nodup_cons]
      refine ⟨?_, ih h.2⟩
      intro hmem
      rcases (mem_keys_dictSet rest k v a).mp hmem with h' | h'
      · exact h.1 h'
      · exact hk h'

theorem mem_dictPop {α : Type} (d : List (String × α)) (k : String)
    (kv : String × α) : kv ∈ dictPop d k ↔ kv ∈ d ∧ kv.1 ≠ k := by
  simp [dictPop, List.mem_filter, bne_iff_ne]

theorem dictGet_dictPop_self {α : Type} (d : List (String × α)) (k : String) :
    dictGet (dictPop d k) k = none := by
  rw [dictGet_eq_none_iff]
  intro hmem
  rcases List.mem_map.mp hmem with ⟨kv, hkv, hfst⟩
  exact ((mem_dictPop d k kv).mp hkv).2 hfst

/-! ### Index-rebuild lemmas -/

theorem addAliases_passthrough (name n : String) (ai : List (String × String))
    (as : List String) (k : String) (h : ∀ a ∈ as, norm a ≠ k) :
    dictGet (addAliases name n ai as) k = dictGet ai k := by
  induction as generalizing ai with
  | nil => rfl
  | cons a rest ih =>
    simp only [addAliases]
    rw [ih _ (fun a' ha' => h a' (List.mem_cons_of_mem _ ha'))]
    split
    · rfl
    · exact dictGet_dictSet_ne ai (norm a) name k
        (fun hh => h a (List.mem_cons_self _ _) hh.symm)

theorem addAliases_lookup (name n : String) (ai : List (String × String))
    (as : List String) (k : String) (hex : ∃ a ∈ as, norm a = k)
    (hk : k ≠ "") (hkn : k ≠ n) :
    dictGet (addAliases name n ai as) k = some name := by
  induction as generalizing ai with
  | nil =>
    rcases hex with ⟨a, ha, _⟩
    cases ha
  | cons a rest ih =>
    by_cases hrest : ∃ a' ∈ rest, norm a' = k
    · simp only [addAliases]
      exact ih _ hrest
    · rcases hex with ⟨a', ha', hna⟩
      rcases List.mem_cons.mp ha' with rfl | hmem
      · simp only [addAliases]
        rw [addAliases_passthrough _ _ _ _ k ?hall]
        case hall =>
          intro x hx hnx
          exact hrest ⟨x, hx, hnx⟩
        rw [if_neg ?hcond]
        case hcond =>
          rintro (h1 | h2)
          · exact hk (hna ▸ h1)
          · exact hkn (hna ▸ h2)
        rw [hna]
        exact dictGet_dictSet_self ai k name
      · exact absurd ⟨a', hmem, hna⟩ hrest

theorem addAliases_mem {name n : String} {ai : List (String × String)}
    {as : List String} {kv : String × String} (h : kv ∈ addAliases name n ai as) :
    kv ∈ ai ∨ ∃ a ∈ as, kv = (norm a, name) ∧ norm a ≠ "" ∧ norm a ≠ n := by
  induction as generalizing ai with
  | nil => exact Or.inl h
  | cons a rest ih =>
    simp only [addAliases] at h
    rcases ih h with h' | ⟨a', ha', hkv⟩
    · by_cases hcond : norm a = "" ∨ norm a = n
      · rw [if_pos hcond] at h'
        exact Or.inl h'
      · rw [if_neg hcond] at h'
        rcases mem_dictSet h' with h'' | h''
        · exact Or.inl h''
        · push_neg at hcond
          exact Or.inr ⟨a, List.mem_cons_self _ _, h'', hcond.1, hcond.2⟩
    · exact Or.inr ⟨a', List.mem_cons_of_mem _ ha', hkv⟩

theorem addAliases_keys_nodup (name n : String) {ai : List (String × String)}
    (as : List String) (h : (ai.map Prod.fst).Nodup) :
    (((addAliases name n ai as)).map Prod.fst).Nodup := by
  induction as generalizing ai with
  | nil => exact h
  | cons a rest ih =>
    simp only [addAliases]
    apply ih
    split
    · exact h
    · exact dictSet_keys_nodup _ h

theorem rebuildAux_fst_passthrough (ni ai : List (String × String))
    (cs : List (String × Counter)) (k : String) (h : ∀ nc ∈ cs, norm nc.1 ≠ k) :
    dictGet (rebuildAux ni ai cs).1 k = dictGet ni k := by
  induction cs generalizing ni ai with
  | nil => rfl
  | cons nc rest ih =>
    simp only [rebuildAux]
    rw [ih _ _ (fun nc' h' => h nc' (List.mem_cons_of_mem _ h'))]
    exact dictGet_dictSet_ne ni (norm nc.1) nc.1 k
      (fun hh => h nc (List.mem_cons_self _ _) hh.symm)

theorem rebuildAux_snd_passthrough (ni ai : List (String × String))
    (cs : List (String × Counter)) (k : String)
    (h : ∀ nc ∈ cs, ∀ a ∈ nc.2.aliases, norm a ≠ k) :
    dictGet (rebuildAux ni ai cs).2 k = dictGet ai k := by
  induction cs generalizing ni ai with
  | nil => rfl
  | cons nc rest ih =>
    simp only [rebuildAux]
    rw [ih _ _ (fun nc' h' => h nc' (List.mem_cons_of_mem _ h'))]
    exact addAliases_passthrough _ _ _ _ k (h nc (List.mem_cons_self _ _))

theorem rebuildAux_fst_lookup (ni ai : List (String × String))
    {cs : List (String × Counter)} (hnd : (cs.map (fun nc => norm nc.1)).Nodup)
    {nc : String × Counter} (hm : nc ∈ cs) :
    dictGet (rebuildAux ni ai cs).1 (norm nc.1) = some nc.1 := by
  induction cs generalizing ni ai with
  | nil => cases hm
  | cons hd rest ih =>
    simp only [List.map_cons, List.nodup_cons] at hnd
    rcases List.mem_cons.mp hm with rfl | hmem
    · simp only [rebuildAux]
      rw [rebuildAux_fst_passthrough _ _ _ _ ?hall]
      case hall =>
        intro nc' h' heq
        exact hnd.1 (heq ▸ List.mem_map.mpr ⟨nc', h', rfl⟩)
      exact dictGet_dictSet_self ni (norm nc.1) nc.1
    · exact ih _ _ hnd.2 hmem

theorem rebuildAux_snd_lookup (ni ai : List (String × String))
    {cs : List (String × Counter)} (hpw : cs.Pairwise patsDisjoint)
    {nc : String × Counter} (hm : nc ∈ cs) {a : String} (ha : a ∈ nc.2.aliases)
    (h1 : norm a ≠ "") (h2 : norm a ≠ norm nc.1) :
    dictGet (rebuildAux ni ai cs).2 (norm a) = some nc.1 := by
  induction cs generalizing ni ai with
  | nil => cases hm
  | cons hd rest ih =>
    rcases List.pairwise_cons.mp hpw with ⟨hdisj, hpw'⟩
    rcases List.mem_cons.mp hm with rfl | hmem
    · simp only [rebuildAux]
      rw [rebuildAux_snd_passthrough _ _ _ _ ?hall]
      case hall =>
        intro nc' hnc' a' ha' heq
        have hk : norm a ∈ pats nc :=
          List.mem_cons_of_mem _ (List.mem_map.mpr ⟨a, ha, rfl⟩)
        exact hdisj nc' hnc' (norm a) hk
          (heq ▸ List.mem_cons_of_mem _ (List.mem_map.mpr ⟨a', ha', rfl⟩))
      exact addAliases_lookup _ _ _ _ _ ⟨a, ha, rfl⟩ h1 h2
    · exact ih _ _ hpw' hmem

theorem rebuildAux_fst_mem {ni ai : List (String × String)}
    {cs : List (String × Counter)} {kv : String × String}
    (h : kv ∈ (rebuildAux ni ai cs).1) :
    kv ∈ ni ∨ ∃ nc ∈ cs, kv = (norm nc.1, nc.1) := by
  induction cs generalizing ni ai with
  | nil => exact Or.inl h
  | cons nc rest ih =>
    simp only [rebuildAux] at h
    rcases ih h with h' | ⟨nc', hnc', hkv⟩
    · rcases mem_dictSet h' with h'' | h''
      · exact Or.inl h''
      · exact Or.inr ⟨nc, List.mem_cons_self _ _, h''⟩
    · exact Or.inr ⟨nc', List.mem_cons_of_mem _ hnc', hkv⟩

theorem rebuildAux_snd_mem {ni ai : List (String × String)}
    {cs : List (String × Counter)} {kv : String × String}
    (h : kv ∈ (rebuildAux ni ai cs).2) :
    kv ∈ ai ∨ ∃ nc ∈ cs, ∃ a ∈ nc.2.aliases,
      kv = (norm a, nc.1) ∧ norm a ≠ "" ∧ norm a ≠ norm nc.1 := by
  induction cs generalizing ni ai with
  | nil => exact Or.inl h
  | cons nc rest ih =>
    simp only [rebuildAux] at h
    rcases ih h with h' | ⟨nc', hnc', a', ha', hkv⟩
    · rcases addAliases_mem h' with h'' | ⟨a, ha, hkv, hne1, hne2⟩
      · exact Or.inl h''
      · exact Or.inr ⟨nc, List.mem_cons_self _ _, a, ha, hkv, hne1, hne2⟩
    · exact Or.inr ⟨nc', List.mem_cons_of_mem _ hnc', a', ha', hkv⟩

theorem rebuildAux_keys_nodup {ni ai : List (String × String)}
    (cs : List (String × Counter)) (h1 : (ni.map Prod.fst).Nodup)
    (h2 : (ai.map Prod.fst).Nodup) :
    ((rebuildAux ni ai cs).1.map Prod.fst).Nodup ∧
      ((rebuildAux ni ai cs).2.map Prod.fst).Nodup := by
  induction cs generalizing ni ai with
  | nil => exact ⟨h1, h2⟩
  | cons nc rest ih =>
    simp only [rebuildAux]
    exact ih (dictSet_keys_nodup _ h1) (addAliases_keys_nodup _ _ _ h2)

theorem rebuildAux_congr (ni ai : List (String × String))
    {cs₁ cs₂ : List (String × Counter)}
    (h : cs₁.map (fun nc => (nc.1, nc.2.aliases)) =
      cs₂.map (fun nc => (nc.1, nc.2.aliases))) :
    rebuildAux ni ai cs₁ = rebuildAux ni ai cs₂ := by
  induction cs₁ generalizing ni ai cs₂ with
  | nil =>
    cases cs₂ with
    | nil => rfl
    | cons _ _ => simp at h
  | cons nc rest ih =>
    cases cs₂ with
    | nil => simp at h
    | cons nc₂ rest₂ =>
      simp only [List.map_cons, List.cons.injEq, Prod.mk.injEq] at h
      obtain ⟨⟨hname, halias⟩, hrest⟩ := h
      simp only [rebuildAux]
      rw [hname, halias]
      exact ih _ _ hrest

/-! ### Matcher lemmas -/

theorem runMatcher_fst (t : String) (cs : List (String × Counter)) :
    (runMatcher t cs).1 = cs.map (fun nc =>
      if counterMatches t nc.1 nc.2 then (nc.1, ⟨nc.2.count + 1, nc.2.aliases⟩)
      else nc) := by
  induction cs with
  | nil => rfl
  | cons nc rest ih =>
    simp only [runMatcher, List.map_cons]
    split <;> simp [ih]

theorem runMatcher_snd (t : String) (cs : List (String × Counter)) :
    (runMatcher t cs).2 =
      (cs.filter (fun nc => counterMatches t nc.1 nc.2)).map Prod.fst := by
  induction cs with
  | nil => rfl
  | cons nc rest ih =>
    simp only [runMatcher, List.filter_cons]
    by_cases h : counterMatches t nc.1 nc.2 <;> simp [h, ih]

theorem runMatcher_proj (t : String) (cs : List (String × Counter)) :
    ((runMatcher t cs).1).map (fun nc => (nc.1, nc.2.aliases)) =
      cs.map (fun nc => (nc.1, nc.2.aliases)) := by
  rw [runMatcher_fst, List.map_map]
  apply List.map_congr_left
  intro nc _
  by_cases h : counterMatches t nc.1 nc.2 <;> simp [h]

theorem rebuildIndex_runMatcher (t : String) (cs : List (String × Counter)) :
    rebuildIndex (runMatcher t cs).1 = rebuildIndex cs :=
  rebuildAux_congr [] [] (runMatcher_proj t cs)

theorem rebuildStore_counters (cs : List (String × Counter)) :
    (rebuildStore cs).counters = cs := rfl

theorem rebuildStore_nameIndex (cs : List (String × Counter)) :
    (rebuildStore cs).nameIndex = (rebuildIndex cs).1 := rfl

theorem rebuildStore_aliasIndex (cs : List (String × Counter)) :
    (rebuildStore cs).aliasIndex = (rebuildIndex cs).2 := rfl

theorem indexed_rebuildStore (cs : List (String × Counter)) :
    indexed (rebuildStore cs) := ⟨rfl, rfl⟩

/-- A fixed small reachable store used to instantiate witness theorems:
counter `foo` (alias `bar`) and counter `baz` (no aliases). -/
def sampleStore : Store :=
  (cntAdd (cntAdd emptyStore "foo" ["bar"]).1 "baz" []).1

/-! ### Claim theorems -/

/-- C8: a message whose sender identity equals the bot's own identity (with
both identities available) never reaches the matcher: the store is
unchanged (no count changes), the hit batch is empty (so no save is
triggered), and no acknowledgement is produced, whatever the content. -/
theorem c8_self_message_excluded (s : Store) (notify : Bool) (i : String)
    (msgStr : String) :
    onAnyMessage s notify (some i) (some i) msgStr = (s, [], none) := by
  simp [onAnyMessage, isSelfMessage]

/-- C10: when a delete resolves to counter `tn`, an entry survives in the
table exactly when it was there before and is not the deleted counter, so
every other counter keeps its exact name, count and alias list. -/
theorem c10_delete_frame (s : Store) (token : String) (tn : String)
    (h : (cntDel s token).2 = some tn) (nc : String × Counter) :
    nc ∈ (cntDel s token).1.counters ↔ nc ∈ s.counters ∧ nc.1 ≠ tn := by
  rcases ha : dictGet s.aliasIndex (norm token) with _ | tn'
  · rcases hn : dictGet s.nameIndex (norm token) with _ | tn'
    · simp [cntDel, ha, hn] at h
    · have heq : tn' = tn := by simpa [cntDel, ha, hn] using h
      subst heq
      simpa [cntDel, ha, hn, rebuildStore_counters] using mem_dictPop s.counters tn' nc
  · have heq : tn' = tn := by simpa [cntDel, ha] using h
    subst heq
    simpa [cntDel, ha, rebuildStore_counters] using mem_dictPop s.counters tn' nc

/-- Witness for C10 on the sample store: deleting via alias `bar` resolves
to `foo` and leaves the unrelated `baz` entry in place. -/
theorem c10_delete_frame_witness :
    ((cntDel sampleStore "bar").2 = some "foo") ∧
    (("baz", (⟨0, []⟩ : Counter)) ∈ (cntDel sampleStore "bar").1.counters ↔
      ("baz", (⟨0, []⟩ : Counter)) ∈ sampleStore.counters ∧ "baz" ≠ "foo") :=
  ⟨by decide, c10_delete_frame sampleStore "bar" "foo" (by decide) ("baz", ⟨0, []⟩)⟩

theorem decodeCounter_encodeCounter (c : Counter) :
    decodeCounter (encodeCounter c) = c := by
  obtain ⟨cnt, as⟩ := c
  simp only [encodeCounter, decodeCounter, dictGet]
  norm_num
  induction as with
  | nil => rfl
  | cons a rest ih => simpa using ih

/-- C9: serializing a counter table with save and parsing it back with load
reproduces exactly the same table (same names, counts and aliases), for
every table, hence independently of insertion order; the loaded store also
carries freshly rebuilt indices. -/
theorem c9_save_load_round_trip (cs : List (String × Counter)) :
    decodeStore (encodeStore cs) = cs ∧ (loadStore (encodeStore cs)).counters = cs := by
  have h : decodeStore (encodeStore cs) = cs := by
    simp only [encodeStore, decodeStore, dictGet]
    norm_num
    have hfun : ((fun nc : String × Json => (nc.1, decodeCounter nc.2)) ∘
        (fun nc : String × Counter => (nc.1, encodeCounter nc.2))) = id := by
      funext nc
      simp [decodeCounter_encodeCounter]
    rw [hfun, List.map_id]
  exact ⟨h, by simpa [loadStore, rebuildStore_counters] using h⟩

/-- C1 (code-bug evidence): on a store already holding counter `foo`, adding
`foo` again is rejected with an existence conflict and the store is left
unchanged — the add neither succeeds, nor preserves-and-merges as the spec
and the source's own count-preservation comment describe; the same happens
for a case-insensitive match of the name. -/
theorem c1_add_existing_name_conflicts :
    ((cntAdd (cntAdd emptyStore "foo" ["bar"]).1 "foo" ["baz"]).2 =
      [Conflict.nameTaken "foo"]) ∧
    ((cntAdd (cntAdd emptyStore "foo" ["bar"]).1 "foo" ["baz"]).1 =
      (cntAdd emptyStore "foo" ["bar"]).1) ∧
    ((cntAdd (cntAdd emptyStore "foo" ["bar"]).1 "FOO" []).2 =
      [Conflict.nameTaken "FOO"]) :=
  ⟨by decide, by decide, by decide⟩

/-- C3: an add reports every conflict of the invocation in its single
response — the name-existence conflict whenever the name is occupied, and
for each supplied (non-blank) alias the invalid/name-clash/alias-clash
conflict its condition fires — and any conflicting add aborts with the
store entirely unchanged. -/
theorem c3_conflicts_complete (s : Store) (name : String) (rawAliases : List String) :
    ((cntAdd s name rawAliases).2 ≠ [] → (cntAdd s name rawAliases).1 = s) ∧
    (((dictGet s.nameIndex (norm name)).isSome ∨
        (dictGet s.aliasIndex (norm name)).isSome) →
      Conflict.nameTaken name ∈ (cntAdd s name rawAliases).2) ∧
    (∀ a ∈ rawAliases, strip a ≠ "" →
      ((norm a = "" ∨ norm a = norm name) →
        Conflict.aliasInvalid a ∈ (cntAdd s name rawAliases).2) ∧
      (¬(norm a = "" ∨ norm a = norm name) →
        (dictGet s.nameIndex (norm a)).isSome →
        Conflict.aliasClashName a ∈ (cntAdd s name rawAliases).2) ∧
      (¬(norm a = "" ∨ norm a = norm name) →
        dictGet s.nameIndex (norm a) = none →
        (dictGet s.aliasIndex (norm a)).isSome →
        Conflict.aliasClashAlias a ∈ (cntAdd s name rawAliases).2)) := by
  classical
  have hout : ∀ c : Conflict,
      c ∈ addConflicts s name (rawAliases.filter (fun a => strip a ≠ "")) →
      c ∈ (cntAdd s name rawAliases).2 := by
    intro c hc
    simp only [cntAdd]
    rw [if_neg (by intro hnil; rw [hnil] at hc; cases hc)]
    exact hc
  refine ⟨?_, ?_, ?_⟩
  · intro hne
    simp only [cntAdd] at hne ⊢
    by_cases h : addConflicts s name (rawAliases.filter (fun a => strip a ≠ "")) = []
    · rw [if_pos h] at hne
      exact absurd rfl hne
    · rw [if_neg h]
  · intro hocc
    refine hout _ ?_
    unfold addConflicts
    rw [if_pos hocc]
    exact List.mem_append_left _ (List.mem_singleton.mpr rfl)
  · intro a hmem hblank
    have hfil : a ∈ rawAliases.filter (fun x => strip x ≠ "") := by
      rw [List.mem_filter]
      exact ⟨hmem, by simpa using hblank⟩
    refine ⟨?_, ?_, ?_⟩
    · intro h1
      refine hout _ ?_
      unfold addConflicts
      exact List.mem_append_right _
        (List.mem_filterMap.mpr ⟨a, hfil, by rw [if_pos h1]⟩)
    · intro h1 h2
      refine hout _ ?_
      unfold addConflicts
      exact List.mem_append_right _
        (List.mem_filterMap.mpr ⟨a, hfil, by rw [if_neg h1, if_pos h2]⟩)
    · intro h1 h2 h3
      refine hout _ ?_
      unfold addConflicts
      exact List.mem_append_right _
        (List.mem_filterMap.mpr
          ⟨a, hfil, by rw [if_neg h1, if_neg (by simp [h2]), if_pos h3]⟩)

theorem anyCongr {α : Type} {l : List α} {f g : α → Bool}
    (h : ∀ x ∈ l, f x = g x) : l.any f = l.any g := by
  induction l with
  | nil => rfl
  | cons x rest ih =>
    simp [List.any_cons, h x (List.mem_cons_self _ _),
      ih (fun y hy => h y (List.mem_cons_of_mem _ hy))]

theorem patternHits_of_norm_ne (tnorm p : String) (h : norm p ≠ "") :
    patternHits tnorm p = substrIn (norm p) tnorm := by
  have hp : p ≠ "" := fun he => h (by rw [he]; rfl)
  simp [patternHits, hp, h]

/-- C2: on a non-empty, non-command message from a foreign sender, the
matcher leaves each counter's count at its old value plus exactly one when
the case-folded text contains the case-folded name or some case-folded
alias as a substring (however many patterns or occurrences match), and at
exactly its old value otherwise; the alias lists and names are untouched.
The side condition — every reachable counter's name and aliases normalize
to non-empty strings — matches what `_cnt_add` stores. -/
theorem c2_matcher_increments (s : Store) (notify : Bool)
    (senderId selfId : Option String) (msgStr : String)
    (hself : isSelfMessage senderId selfId = false)
    (hne : strip msgStr ≠ "")
    (hcmd : strStartsWith (strip msgStr) "/cnt" = false)
    (hpat : ∀ nc ∈ s.counters, norm nc.1 ≠ "" ∧ ∀ a ∈ nc.2.aliases, norm a ≠ "") :
    (onAnyMessage s notify senderId selfId msgStr).1.counters =
      s.counters.map (fun nc =>
        if (nc.1 :: nc.2.aliases).any
            (fun p => substrIn (norm p) (norm (strip msgStr))) then
          (nc.1, ⟨nc.2.count + 1, nc.2.aliases⟩)
        else nc) := by
  have hbody : (onAnyMessage s notify senderId selfId msgStr).1.counters =
      (runMatcher (norm (strip msgStr)) s.counters).1 := by
    simp [onAnyMessage, hself, hne, hcmd]
  rw [hbody, runMatcher_fst]
  apply List.map_congr_left
  intro nc hmem
  have hc : counterMatches (norm (strip msgStr)) nc.1 nc.2 =
      (nc.1 :: nc.2.aliases).any
        (fun p => substrIn (norm p) (norm (strip msgStr))) := by
    unfold counterMatches
    apply anyCongr
    intro p hp
    rcases List.mem_cons.mp hp with rfl | hpa
    · exact patternHits_of_norm_ne _ _ (hpat nc hmem).1
    · exact patternHits_of_norm_ne _ _ ((hpat nc hmem).2 p hpa)
  rw [hc]

/-- Witness for C2 on the sample store: the message mentions alias `bar`
twice and name `foo` never, so `foo` gains exactly one count and `baz`
none. -/
theorem c2_matcher_increments_witness :
    (isSelfMessage none none = false) ∧
    (strip " I love BAR, bar! " ≠ "") ∧
    (strStartsWith (strip " I love BAR, bar! ") "/cnt" = false) ∧
    ((onAnyMessage sampleStore true none none " I love BAR, bar! ").1.counters =
      sampleStore.counters.map (fun nc =>
        if (nc.1 :: nc.2.aliases).any
            (fun p => substrIn (norm p) (norm (strip " I love BAR, bar! "))) then
          (nc.1, ⟨nc.2.count + 1, nc.2.aliases⟩)
        else nc)) :=
  ⟨rfl, by decide, by decide,
    c2_matcher_increments sampleStore true none none " I love BAR, bar! "
      rfl (by decide) (by decide) (by decide)⟩

theorem onAnyMessage_reply (s : Store) (notify : Bool) (a b : Option String)
    (m : String) :
    (onAnyMessage s notify a b m).2.2 =
      if notify ∧ (onAnyMessage s notify a b m).2.1 ≠ [] then
        some (buildReply (onAnyMessage s notify a b m).1.counters
          (onAnyMessage s notify a b m).2.1)
      else none := by
  by_cases h1 : isSelfMessage a b
  · simp [onAnyMessage, h1]
  · by_cases h2 : strip m = ""
    · simp [onAnyMessage, h1, h2]
    · by_cases h3 : strStartsWith (strip m) "/cnt"
      · simp [onAnyMessage, h1, h2, h3]
      · simp [onAnyMessage, h1, h2, h3]

/-- C7: with notifications on, a single-counter match chooses the
acknowledgement by the new count — each of the six fixed milestone value
sets yields its themed message, and a count outside all six yields the
generic count/target line — while a match of two or more counters skips
the themed messages and yields the single combined summary line. -/
theorem c7_milestone_selection (s : Store) (senderId selfId : Option String)
    (msgStr : String) (r : Store × List String × Option String)
    (hr : r = msgResult s senderId selfId msgStr) :
    (∀ n, r.2.1 = [n] →
      ((countOf r.1.counters n ∈ milestonesA →
          r.2.2 = some ("恶臭的计数器就是「" ++ n ++ "」啦~~~")) ∧
       (countOf r.1.counters n ∈ milestonesB →
          r.2.2 = some ("就这？————「" ++ n ++ "」")) ∧
       (countOf r.1.counters n ∈ milestonesC →
          r.2.2 = some ("💗💗💗我爱你! 一生一世! ————「" ++ n ++ "」")) ∧
       (countOf r.1.counters n ∈ milestonesD →
          r.2.2 = some (n ++ ", 6")) ∧
       (countOf r.1.counters n ∈ milestonesE →
          r.2.2 = some "23333————") ∧
       (countOf r.1.counters n ∈ milestonesF →
          r.2.2 = some ("🎉🎉🎉恭喜！计数器「" ++ n ++ "」达成 " ++
            toString (countOf r.1.counters n) ++ " 次！")) ∧
       (countOf r.1.counters n ∉ milestonesA ∧ countOf r.1.counters n ∉ milestonesB ∧
        countOf r.1.counters n ∉ milestonesC ∧ countOf r.1.counters n ∉ milestonesD ∧
        countOf r.1.counters n ∉ milestonesE ∧ countOf r.1.counters n ∉ milestonesF →
          r.2.2 = some (genericLine n (countOf r.1.counters n))))) ∧
    (∀ n1 n2 rest, r.2.1 = n1 :: n2 :: rest →
      r.2.2 = some (combinedLine r.1.counters r.2.1)) := by
  subst hr
  simp only [msgResult] at *
  have hrep := onAnyMessage_reply s true senderId selfId msgStr
  constructor
  · intro n hn
    rw [hn] at hrep
    simp only [ne_eq, reduceCtorEq, not_false_eq_true, and_self, if_true,
      true_and] at hrep
    refine ⟨?_, ?_, ?_, ?_, ?_, ?_, ?_⟩
    · intro hmem
      rw [hrep]
      simp only [buildReply, getSpecialMessage, if_pos hmem]
    · intro hmem
      simp only [milestonesB, List.mem_cons, List.not_mem_nil, or_false] at hmem
      rcases hmem with heq | heq | heq <;>
        (rw [hrep]; simp only [buildReply]; rw [heq];
         norm_num [getSpecialMessage, milestonesA, milestonesB])
    · intro hmem
      simp only [milestonesC, List.mem_cons, List.not_mem_nil, or_false] at hmem
      rcases hmem with heq | heq <;>
        (rw [hrep]; simp only [buildReply]; rw [heq];
         norm_num [getSpecialMessage, milestonesA, milestonesB, milestonesC])
    · intro hmem
      simp only [milestonesD, List.mem_cons, List.not_mem_nil, or_false] at hmem
      rcases hmem with heq | heq | heq | heq <;>
        (rw [hrep]; simp only [buildReply]; rw [heq];
         norm_num [getSpecialMessage, milestonesA, milestonesB, milestonesC,
           milestonesD])
    · intro hmem
      simp only [milestonesE, List.mem_cons, List.not_mem_nil, or_false] at hmem
      rcases hmem with heq | heq | heq <;>
        (rw [hrep]; simp only [buildReply]; rw [heq];
         norm_num [getSpecialMessage, milestonesA, milestonesB, milestonesC,
           milestonesD, milestonesE])
    · intro hmem
      simp only [milestonesF, List.mem_cons, List.not_mem_nil, or_false] at hmem
      rcases hmem with heq | heq | heq | heq <;>
        (rw [hrep]; simp only [buildReply]; rw [heq];
         norm_num [getSpecialMessage, milestonesA, milestonesB, milestonesC,
           milestonesD, milestonesE, milestonesF])
    · intro hnot
      rw [hrep]
      simp only [buildReply, getSpecialMessage, if_neg hnot.1, if_neg hnot.2.1,
        if_neg hnot.2.2.1, if_neg hnot.2.2.2.1, if_neg hnot.2.2.2.2.1,
        if_neg hnot.2.2.2.2.2]
  · intro n1 n2 rest hn
    rw [hn] at hrep
    simp only [ne_eq, reduceCtorEq, not_false_eq_true, and_self, if_true,
      true_and] at hrep
    rw [hrep, hn]
    simp only [buildReply]

/-- Witness for C7: a store holding `foo` at count 113 receives the message
`foo`; the single hit raises it to 114, inside milestone set A, so the
themed message A is produced. -/
theorem c7_milestone_selection_witness :
    ((msgResult (rebuildStore [("foo", ⟨113, []⟩)]) none none "foo").2.1 =
      ["foo"]) ∧
    (countOf (msgResult (rebuildStore [("foo", ⟨113, []⟩)]) none none
      "foo").1.counters "foo" ∈ milestonesA) ∧
    ((msgResult (rebuildStore [("foo", ⟨113, []⟩)]) none none "foo").2.2 =
      some ("恶臭的计数器就是「" ++ "foo" ++ "」啦~~~")) :=
  ⟨by decide, by decide,
    ((c7_milestone_selection (rebuildStore [("foo", ⟨113, []⟩)]) none none "foo"
      _ rfl).1 "foo" (by decide)).1 (by decide)⟩

theorem patsDisjoint_symmetric : Symmetric patsDisjoint :=
  fun _ _ h k hky hkx => h k hkx hky

/-- C4: the delete key is resolved against the alias index first and the
name index second; an unresolvable key fails with no state change, and a
resolved key removes the owning counter with all its aliases in one step —
afterwards neither its case-folded name nor any of its case-folded aliases
resolves in either index, so all of them are immediately reusable. -/
theorem c4_delete_resolution (s : Store) (token : String) (hg : GoodStore s) :
    (dictGet s.aliasIndex (norm token) = none →
      dictGet s.nameIndex (norm token) = none → cntDel s token = (s, none)) ∧
    (∀ tn, dictGet s.aliasIndex (norm token) = some tn →
      (cntDel s token).2 = some tn) ∧
    (∀ tn, dictGet s.aliasIndex (norm token) = none →
      dictGet s.nameIndex (norm token) = some tn →
      (cntDel s token).2 = some tn) ∧
    (∀ tn c, (cntDel s token).2 = some tn → (tn, c) ∈ s.counters →
      dictGet (cntDel s token).1.counters tn = none ∧
      (∀ k, (k = norm tn ∨ ∃ a ∈ c.aliases, k = norm a) →
        dictGet (cntDel s token).1.nameIndex k = none ∧
        dictGet (cntDel s token).1.aliasIndex k = none)) := by
  obtain ⟨⟨hOK, hpw⟩, hidx⟩ := hg
  refine ⟨?_, ?_, ?_, ?_⟩
  · intro h1 h2
    simp [cntDel, h1, h2]
  · intro tn h
    simp [cntDel, h]
  · intro tn h1 h2
    simp [cntDel, h1, h2]
  · intro tn c hres hmem
    have hstore : (cntDel s token).1 = rebuildStore (dictPop s.counters tn) := by
      rcases ha : dictGet s.aliasIndex (norm token) with _ | tn'
      · rcases hn : dictGet s.nameIndex (norm token) with _ | tn'
        · simp [cntDel, ha, hn] at hres
        · have heq : tn' = tn := by simpa [cntDel, ha, hn] using hres
          subst heq
          simp [cntDel, ha, hn]
      · have heq : tn' = tn := by simpa [cntDel, ha] using hres
        subst heq
        simp [cntDel, ha]
    have hfree : ∀ k, k ∈ pats (tn, c) →
        ∀ nc' ∈ dictPop s.counters tn, k ∉ pats nc' := by
      intro k hkpats nc' hnc' hkp
      have h1 := (mem_dictPop s.counters tn nc').mp hnc'
      have hne : nc' ≠ (tn, c) := by
        intro he
        rw [he] at h1
        exact h1.2 rfl
      exact List.Pairwise.forall patsDisjoint_symmetric hpw h1.1 hmem hne k hkp
        hkpats
    rw [hstore]
    refine ⟨by rw [rebuildStore_counters]; exact dictGet_dictPop_self _ _, ?_⟩
    intro k hk
    have hkpats : k ∈ pats (tn, c) := by
      rcases hk with rfl | ⟨a, ha', rfl⟩
      · exact List.mem_cons_self _ _
      · exact List.mem_cons_of_mem _ (List.mem_map.mpr ⟨a, ha', rfl⟩)
    constructor
    · rw [rebuildStore_nameIndex]
      rcases hl : dictGet (rebuildIndex (dictPop s.counters tn)).1 k with _ | v
      · rfl
      · exfalso
        rcases rebuildAux_fst_mem (dictGet_mem hl) with h0 | ⟨nc', hnc', heq⟩
        · cases h0
        · have hkn : k = norm nc'.1 := congrArg Prod.fst heq
          exact hfree k hkpats nc' hnc' (hkn ▸ List.mem_cons_self _ _)
    · rw [rebuildStore_aliasIndex]
      rcases hl : dictGet (rebuildIndex (dictPop s.counters tn)).2 k with _ | v
      · rfl
      · exfalso
        rcases rebuildAux_snd_mem (dictGet_mem hl) with h0 | ⟨nc', hnc', a', ha', heq, _, _⟩
        · cases h0
        · have hkn : k = norm a' := congrArg Prod.fst heq
          exact hfree k hkpats nc' hnc'
            (hkn ▸ List.mem_cons_of_mem _ (List.mem_map.mpr ⟨a', ha', rfl⟩))

/-- Witness for C4 on the sample store: deleting by the upper-case alias
`BAR` resolves through the alias index to `foo`; afterwards neither the
counter nor the keys `foo`/`bar` resolve anywhere. -/
theorem c4_delete_resolution_witness :
    GoodStore sampleStore ∧
    ((cntDel sampleStore "BAR").2 = some "foo") ∧
    (dictGet (cntDel sampleStore "BAR").1.counters "foo" = none) ∧
    (dictGet (cntDel sampleStore "BAR").1.nameIndex "bar" = none) ∧
    (dictGet (cntDel sampleStore "BAR").1.aliasIndex "bar" = none) := by
  have h := c4_delete_resolution sampleStore "BAR" (by decide)
  have h4 := h.2.2.2 "foo" ⟨0, ["bar"]⟩ (h.2.1 "foo" (by decide)) (by decide)
  have hbar := h4.2 "bar" (Or.inr ⟨"bar", by decide, by decide⟩)
  exact ⟨by decide, h.2.1 "foo" (by decide), h4.1, hbar.1, hbar.2⟩

theorem nodup_norm_names {cs : List (String × Counter)}
    (hpw : cs.Pairwise patsDisjoint) :
    (cs.map (fun nc => norm nc.1)).Nodup := by
  have h : cs.Pairwise (fun x y => norm x.1 ≠ norm y.1) := by
    apply hpw.imp
    intro x y h heq
    exact h (norm x.1) (List.mem_cons_self _ _)
      (by rw [heq]; exact List.mem_cons_self _ _)
  exact List.pairwise_map.mpr h

/-- C5: under the store invariant the two indices are a pure derived view
of the counter table — the rebuild keys are duplicate-free, every counter
contributes its case-folded name mapping to its canonical name, every
non-empty alias distinct from its own name maps to its owner's canonical
name, every index entry traces back to some counter, and after load, add,
delete and the message-triggered increment the store's indices equal the
pure rebuild of its table. -/
theorem c5_index_pure_view (s : Store) (hg : GoodStore s) :
    (((rebuildIndex s.counters).1.map Prod.fst).Nodup ∧
      ((rebuildIndex s.counters).2.map Prod.fst).Nodup) ∧
    (∀ nc ∈ s.counters,
      dictGet (rebuildIndex s.counters).1 (norm nc.1) = some nc.1) ∧
    (∀ nc ∈ s.counters, ∀ a ∈ nc.2.aliases, norm a ≠ "" → norm a ≠ norm nc.1 →
      dictGet (rebuildIndex s.counters).2 (norm a) = some nc.1) ∧
    (∀ kv ∈ (rebuildIndex s.counters).1,
      ∃ nc ∈ s.counters, kv = (norm nc.1, nc.1)) ∧
    (∀ kv ∈ (rebuildIndex s.counters).2,
      ∃ nc ∈ s.counters, ∃ a ∈ nc.2.aliases, kv = (norm a, nc.1)) ∧
    (∀ j, indexed (loadStore j)) ∧
    (∀ name args, indexed (cntAdd s name args).1) ∧
    (∀ token, indexed (cntDel s token).1) ∧
    (∀ notify senderId selfId msgStr,
      indexed (onAnyMessage s notify senderId selfId msgStr).1) := by
  obtain ⟨⟨hOK, hpw⟩, hidx⟩ := hg
  refine ⟨?_, ?_, ?_, ?_, ?_, ?_, ?_, ?_, ?_⟩
  · exact rebuildAux_keys_nodup s.counters (by simp) (by simp)
  · intro nc hm
    exact rebuildAux_fst_lookup [] [] (nodup_norm_names hpw) hm
  · intro nc hm a ha h1 h2
    exact rebuildAux_snd_lookup [] [] hpw hm ha h1 h2
  · intro kv hkv
    rcases rebuildAux_fst_mem hkv with h0 | h1
    · cases h0
    · exact h1
  · intro kv hkv
    rcases rebuildAux_snd_mem hkv with h0 | ⟨nc, hnc, a, ha, heq, _, _⟩
    · cases h0
    · exact ⟨nc, hnc, a, ha, heq⟩
  · intro j
    exact indexed_rebuildStore _
  · intro name args
    by_cases h : addConflicts s name (args.filter (fun a => strip a ≠ "")) = []
    · simp only [cntAdd, if_pos h]
      exact indexed_rebuildStore _
    · simp only [cntAdd, if_neg h]
      exact hidx
  · intro token
    rcases ha : dictGet s.aliasIndex (norm token) with _ | tn
    · rcases hn : dictGet s.nameIndex (norm token) with _ | tn
      · simpa [cntDel, ha, hn] using hidx
      · simp only [cntDel, ha, hn]
        exact indexed_rebuildStore _
    · simp only [cntDel, ha]
      exact indexed_rebuildStore _
  · intro notify senderId selfId msgStr
    by_cases h1 : isSelfMessage senderId selfId
    · simpa [onAnyMessage, h1] using hidx
    · by_cases h2 : strip msgStr = ""
      · simpa [onAnyMessage, h1, h2] using hidx
      · by_cases h3 : strStartsWith (strip msgStr) "/cnt"
        · simpa [onAnyMessage, h1, h2, h3] using hidx
        · have hstore : (onAnyMessage s notify senderId selfId msgStr).1 =
              { s with counters :=
                (runMatcher (norm (strip msgStr)) s.counters).1 } := by
            simp [onAnyMessage, h1, h2, h3]
          rw [hstore]
          constructor
          · show s.nameIndex =
              (rebuildIndex (runMatcher (norm (strip msgStr)) s.counters).1).1
            rw [rebuildIndex_runMatcher]
            exact hidx.1
          · show s.aliasIndex =
              (rebuildIndex (runMatcher (norm (strip msgStr)) s.counters).1).2
            rw [rebuildIndex_runMatcher]
            exact hidx.2

/-- Witness for C5 on the sample store: the invariant holds concretely,
the name lookup of `foo` resolves, and the indices remain the pure rebuild
after a delete and after a message-triggered increment. -/
theorem c5_index_pure_view_witness :
    GoodStore sampleStore ∧
    (dictGet (rebuildIndex sampleStore.counters).1 (norm "foo") = some "foo") ∧
    indexed (cntDel sampleStore "bar").1 ∧
    indexed (onAnyMessage sampleStore true none none "hello bar").1 := by
  have h := c5_index_pure_view sampleStore (by decide)
  exact ⟨by decide, h.2.1 ("foo", ⟨0, ["bar"]⟩) (by decide),
    h.2.2.2.2.2.2.2.1 "bar", h.2.2.2.2.2.2.2.2 true none none "hello bar"⟩

theorem tableOK_dictPop {cs : List (String × Counter)} (h : tableOK cs)
    (k : String) : tableOK (dictPop cs k) :=
  ⟨fun nc hm => h.1 nc ((mem_dictPop _ _ _).mp hm).1,
   List.Pairwise.sublist (List.filter_sublist _) h.2⟩

theorem cntDel_preserves_good {s : Store} (token : String) (hg : GoodStore s) :
    GoodStore (cntDel s token).1 := by
  rcases ha : dictGet s.aliasIndex (norm token) with _ | tn
  · rcases hn : dictGet s.nameIndex (norm token) with _ | tn
    · simpa [cntDel, ha, hn] using hg
    · simp only [cntDel, ha, hn]
      exact ⟨tableOK_dictPop hg.1 tn, indexed_rebuildStore _⟩
  · simp only [cntDel, ha]
    exact ⟨tableOK_dictPop hg.1 tn, indexed_rebuildStore _⟩

theorem cntAdd_preserves_good {s : Store} (name : String)
    (rawAliases : List String) (hg : GoodStore s) :
    GoodStore (cntAdd s name rawAliases).1 := by
  obtain ⟨⟨hOK, hpw⟩, hidx⟩ := hg
  by_cases hc : addConflicts s name (rawAliases.filter (fun a => strip a ≠ "")) = []
  swap
  · simp only [cntAdd, if_neg hc]
    exact ⟨⟨hOK, hpw⟩, hidx⟩
  · simp only [cntAdd, if_pos hc]
    refine ⟨?_, indexed_rebuildStore _⟩
    rw [rebuildStore_counters]
    -- unpack the absence of conflicts
    unfold addConflicts at hc
    obtain ⟨h1, h2⟩ := List.append_eq_nil.mp hc
    have hocc : dictGet s.nameIndex (norm name) = none ∧
        dictGet s.aliasIndex (norm name) = none := by
      by_cases hP : (dictGet s.nameIndex (norm name)).isSome ∨
          (dictGet s.aliasIndex (norm name)).isSome
      · rw [if_pos hP] at h1
        cases h1
      · push_neg at hP
        exact ⟨Option.not_isSome_iff_eq_none.mp hP.1,
          Option.not_isSome_iff_eq_none.mp hP.2⟩
    have hFacts : ∀ a ∈ rawAliases.filter (fun a => strip a ≠ ""),
        (norm a ≠ "" ∧ norm a ≠ norm name) ∧
        dictGet s.nameIndex (norm a) = none ∧
        dictGet s.aliasIndex (norm a) = none := by
      intro a hmem
      have hfa := (List.filterMap_eq_nil_iff.mp h2) a hmem
      by_cases c1 : norm a = "" ∨ norm a = norm name
      · rw [if_pos c1] at hfa
        cases hfa
      · rw [if_neg c1] at hfa
        push_neg at c1
        by_cases c2 : (dictGet s.nameIndex (norm a)).isSome
        · rw [if_pos c2] at hfa
          cases hfa
        · rw [if_neg c2] at hfa
          by_cases c3 : (dictGet s.aliasIndex (norm a)).isSome
          · rw [if_pos c3] at hfa
            cases hfa
          · exact ⟨c1, Option.not_isSome_iff_eq_none.mp c2,
              Option.not_isSome_iff_eq_none.mp c3⟩
    -- translate index lookups into table facts
    have hNameKeyNone : ∀ k, dictGet s.nameIndex k = none →
        ∀ nc ∈ s.counters, norm nc.1 ≠ k := by
      intro k hk nc hm heq
      have hl := rebuildAux_fst_lookup [] [] (nodup_norm_names hpw) hm
      rw [heq] at hl
      have hcontra : dictGet s.nameIndex k = some nc.1 := by
        rw [hidx.1]
        exact hl
      rw [hk] at hcontra
      cases hcontra
    have hAliasKeyNone : ∀ k, dictGet s.aliasIndex k = none →
        ∀ nc ∈ s.counters, ∀ a' ∈ nc.2.aliases, norm a' ≠ k := by
      intro k hk nc hm a' ha' heq
      obtain ⟨hne1, hne2⟩ := hOK nc hm a' ha'
      have hl := rebuildAux_snd_lookup [] [] hpw hm ha' hne1 hne2
      rw [heq] at hl
      have hcontra : dictGet s.aliasIndex k = some nc.1 := by
        rw [hidx.2]
        exact hl
      rw [hk] at hcontra
      cases hcontra
    -- the new key is fresh, so the assignment appends
    have hkeys : name ∉ s.counters.map Prod.fst := by
      intro hmemk
      rcases List.mem_map.mp hmemk with ⟨nc, hnc, hfst⟩
      exact hNameKeyNone (norm name) hocc.1 nc hnc (by rw [hfst])
    rw [dictSet_of_not_mem_keys _ hkeys]
    constructor
    · intro nc hm
      rcases List.mem_append.mp hm with hm' | hm'
      · exact hOK nc hm'
      · have he : nc = (name, ⟨match dictGet s.counters name with
            | some c => c.count
            | none => 0, rawAliases.filter (fun a => strip a ≠ "")⟩) :=
          List.mem_singleton.mp hm'
        subst he
        intro a ha
        exact (hFacts a ha).1
    · refine List.pairwise_append.mpr ⟨hpw, List.pairwise_singleton _ _, ?_⟩
      intro x hx y hy
      have hey : y = (name, ⟨match dictGet s.counters name with
          | some c => c.count
          | none => 0, rawAliases.filter (fun a => strip a ≠ "")⟩) :=
        List.mem_singleton.mp hy
      subst hey
      intro k hkx hky
      rcases List.mem_cons.mp hky with hkn | hka
      · -- k is the new normalized name
        rcases List.mem_cons.mp hkx with hkx' | hkx'
        · exact hNameKeyNone (norm name) hocc.1 x hx (by rw [← hkx', hkn])
        · rcases List.mem_map.mp hkx' with ⟨a', ha', hna'⟩
          exact hAliasKeyNone (norm name) hocc.2 x hx a' ha' (by rw [hna', hkn])
      · -- k is one of the new normalized aliases
        rcases List.mem_map.mp hka with ⟨a, ha, hna⟩
        obtain ⟨_, hn2, hn3⟩ := hFacts a ha
        rcases List.mem_cons.mp hkx with hkx' | hkx'
        · exact hNameKeyNone (norm a) hn2 x hx (by rw [← hkx', ← hna])
        · rcases List.mem_map.mp hkx' with ⟨a', ha', hna'⟩
          exact hAliasKeyNone (norm a) hn3 x hx a' ha' (by rw [hna', ← hna])

theorem reachable_good {s : Store} (h : Reachable s) : GoodStore s := by
  induction h with
  | empty =>
    exact ⟨⟨fun nc hm => absurd hm (List.not_mem_nil _), List.Pairwise.nil⟩,
      rfl, rfl⟩
  | add s name args _ ih => exact cntAdd_preserves_good name args ih
  | del s token _ ih => exact cntDel_preserves_good token ih

/-- C6 (amended): in every store reachable by add and delete from the empty
store, every alias normalizes to a non-empty string different from its own
counter's case-folded name, and distinct counters share no case-folded
name or alias; duplicates within one counter's own alias list, however,
are possible (see the counterexample). -/
theorem c6_alias_uniqueness_reachable (s : Store) (h : Reachable s) :
    (∀ nc ∈ s.counters, ∀ a ∈ nc.2.aliases, norm a ≠ "" ∧ norm a ≠ norm nc.1) ∧
    s.counters.Pairwise patsDisjoint :=
  ⟨(reachable_good h).1.1, (reachable_good h).1.2⟩

/-- Witness for C6 (amended) on a store reached by one add. -/
theorem c6_alias_uniqueness_reachable_witness :
    Reachable (cntAdd emptyStore "foo" ["bar"]).1 ∧
    (cntAdd emptyStore "foo" ["bar"]).1.counters.Pairwise patsDisjoint :=
  ⟨Reachable.add _ _ _ Reachable.empty,
    (c6_alias_uniqueness_reachable _ (Reachable.add _ _ _ Reachable.empty)).2⟩

/-- C6 counterexample: a single add call whose alias list repeats `bar`
succeeds from the empty store, so a reachable counter carries a
case-insensitively duplicated alias list, contradicting the claimed
store-wide (including intra-call) uniqueness. -/
theorem c6_duplicate_alias_counterexample :
    ((cntAdd emptyStore "foo" ["bar", "bar"]).2 = []) ∧
    ((cntAdd emptyStore "foo" ["bar", "bar"]).1.counters =
      [("foo", ⟨0, ["bar", "bar"]⟩)]) ∧
    Reachable (cntAdd emptyStore "foo" ["bar", "bar"]).1 ∧
    ¬ ((["bar", "bar"].map norm).Nodup) :=
  ⟨by decide, by decide, Reachable.add _ _ _ Reachable.empty, by decide⟩

/-- Witness for C3: on the sample store, adding name `foo` with aliases
`bar` and an alias equal to the new name reports all three conflicts
together and leaves the store unchanged. -/
theorem c3_conflicts_complete_witness :
    ((cntAdd sampleStore "foo" ["bar", "foo"]).2 ≠ [] →
      (cntAdd sampleStore "foo" ["bar", "foo"]).1 = sampleStore) ∧
    (Conflict.nameTaken "foo" ∈ (cntAdd sampleStore "foo" ["bar", "foo"]).2) ∧
    (Conflict.aliasClashAlias "bar" ∈ (cntAdd sampleStore "foo" ["bar", "foo"]).2) ∧
    (Conflict.aliasInvalid "foo" ∈ (cntAdd sampleStore "foo" ["bar", "foo"]).2) := by
  have h := c3_conflicts_complete sampleStore "foo" ["bar", "foo"]
  refine ⟨h.1, h.2.1 (by decide), ?_, ?_⟩
  · exact (h.2.2 "bar" (by decide) (by decide)).2.2 (by decide) (by decide) (by decide)
  · exact (h.2.2 "foo" (by decide) (by decide)).1 (by decide)

end CounterPlugin
